import Mathlib

/-!
Shallow embedding of the status-dashboard client core
(`src/static/js/app.js`, plus the earlier revision kept as
`src/unnamed/part_000`): the stable-order registry, the history window
extractor, the chart-lifecycle reconciliation, the tooltip geometry,
and the polling/fetch state machine.  JS numbers that hold pixel
coordinates or ranks are modelled as `Int`; JS arrays as `List`;
absent / non-array object fields as `Option`; the JS object used as the
order map as an association list with unique keys.
-/

namespace StatusApp

/-! ## Order registry (`ensureStableOrder`, `loadSavedOrder`) -/

/-- Registry state: `map` is the JS object `orderMap` (name → rank),
`next` is `nextOrder`.  Ranks are `Int` because the persisted map is
arbitrary JSON numbers, not guaranteed non-negative. -/
structure Reg where
  map : List (String × Int)
  next : Int
  deriving Repr, DecidableEq

/-- The registry the Vue component starts with: `orderMap` empty,
`nextOrder = 0`. -/
def Reg.initial : Reg := ⟨[], 0⟩

/-- One iteration of the `list.forEach` body of `ensureStableOrder`:
`if (this.orderMap[api.name] == null) this.orderMap[api.name] = this.nextOrder++;`
then `api.__order = this.orderMap[api.name]`.  Returns the updated
registry together with the `__order` value stamped on the entity. -/
def ensureStep (r : Reg) (name : String) : Reg × Int :=
  match r.map.lookup name with
  | some v => (r, v)
  | none => (⟨r.map ++ [(name, r.next)], r.next + 1⟩, r.next)

/-- The `list.forEach` loop of `ensureStableOrder`, processed left to
right: threads the registry and collects each entity's stamped
`__order` in snapshot order. -/
def stampAll (r : Reg) : List String → Reg × List (String × Int)
  | [] => (r, [])
  | n :: rest =>
    let (r', v) := ensureStep r n
    let (r'', stamped) := stampAll r' rest
    (r'', (n, v) :: stamped)

/-- The method `ensureStableOrder(list)`: stamps every entity's `__order` from the
map (assigning fresh ranks to unseen names), then sorts the list
ascending by `__order` (`list.sort((a,b) => a.__order - b.__order)`).
Entities are represented by their `name`; the returned list carries the
stamped `__order` of each. -/
def ensureStableOrder (r : Reg) (names : List String) : Reg × List (String × Int) :=
  let (r', stamped) := stampAll r names
  (r', stamped.mergeSort (fun a b => decide (a.2 ≤ b.2)))

/-- The registry after processing one snapshot (the state effect of
`ensureStableOrder`). -/
def processSnapshot (r : Reg) (names : List String) : Reg :=
  (ensureStableOrder r names).1

/-- The registry after processing a sequence of snapshots in order. -/
def runSnapshots (r : Reg) (snaps : List (List String)) : Reg :=
  snaps.foldl processSnapshot r

/-- The stamped, sorted output of `ensureStableOrder` on the `i`-th
snapshot of a session that started from registry `r`. -/
def snapshotRanks (r : Reg) (snaps : List (List String)) (i : Nat) :
    List (String × Int) :=
  (ensureStableOrder (runSnapshots r (snaps.take i)) (snaps.getD i [])).2

/-! ### `loadSavedOrder` and the raw (JSON-valued) registry -/

/-- A JSON value as `JSON.parse` can yield it: null, booleans, numbers
(`jnum` for values in double range, `jnumBig` for a literal that
overflows to `+Infinity`/`-Infinity`, such as `1e999`), strings,
arrays and objects. -/
inductive Json where
  | jnull : Json
  | jbool : Bool → Json
  | jnum : Int → Json
  | jnumBig : Bool → Json
  | jstr : String → Json
  | jarr : List Json → Json
  | jobj : List (String × Json) → Json
  deriving Repr

/-- What `localStorage.getItem("apiOrder")` + `JSON.parse` produced:
the key is absent, the stored string fails to parse, or it parses to a
JSON value. -/
inductive Stored where
  | absent : Stored
  | badJson : Stored
  | val : Json → Stored
  deriving Repr

/-- A JS number as consumed and produced by `Math.max`/`isFinite`: a
finite value, one of the two infinities, or NaN. -/
inductive JNum where
  | fin : Int → JNum
  | posInf : JNum
  | negInf : JNum
  | nan : JNum
  deriving Repr, DecidableEq

/-- The numeric value of an unsigned decimal digit string. -/
def digitsVal (cs : List Char) : Int :=
  ((cs.foldl (fun acc c => acc * 10 + (c.toNat - '0'.toNat)) 0 : Nat) : Int)

/-- JS `Number()` on a string: the empty string coerces to `0`, an
unsigned decimal digit string to its value, and every other modelled
string to NaN.  (Signs, fractions, exponents, radix prefixes and
surrounding whitespace are outside the modelled string subset; every
string this development evaluates is either empty, all digits, or
non-numeric.) -/
def jsStrToNum (s : String) : JNum :=
  match s.data with
  | [] => JNum.fin 0
  | cs => if cs.all Char.isDigit then JNum.fin (digitsVal cs) else JNum.nan

/-- JS `ToNumber` as `Math.max` applies it to a parsed JSON value:
`null → 0`, `false → 0`, `true → 1`, numbers are themselves (an
overflowed literal is already infinite), strings parse as numeric
literals, `[] → 0`, a one-element array coerces through its element
(modelled for a numeric element), any other array and every plain
object coerce to NaN (`"[object Object]"` is never numeric). -/
def toNum : Json → JNum
  | Json.jnull => JNum.fin 0
  | Json.jbool b => JNum.fin (if b then 1 else 0)
  | Json.jnum n => JNum.fin n
  | Json.jnumBig pos => if pos then JNum.posInf else JNum.negInf
  | Json.jstr s => jsStrToNum s
  | Json.jarr [] => JNum.fin 0
  | Json.jarr [Json.jnum n] => JNum.fin n
  | Json.jarr _ => JNum.nan
  | Json.jobj _ => JNum.nan

/-- Binary `Math.max`: NaN-absorbing, otherwise the usual order with
the infinities. -/
def jsMax (x y : JNum) : JNum :=
  match x, y with
  | JNum.nan, _ => JNum.nan
  | _, JNum.nan => JNum.nan
  | JNum.posInf, _ => JNum.posInf
  | _, JNum.posInf => JNum.posInf
  | JNum.negInf, b => b
  | a, JNum.negInf => a
  | JNum.fin a, JNum.fin b => JNum.fin (max a b)

/-- The expression `Math.max(-1, ...Object.values(saved))` over the
coerced field values. -/
def maxValues (fields : List (String × Json)) : JNum :=
  fields.foldl (fun m p => jsMax m (toNum p.2)) (JNum.fin (-1))

/-- The registry as it really is after a restore: `orderMap` holds
whatever JSON values the persisted object carried, `nextOrder` is a JS
number kept finite by the `isFinite` guard (so `Int`). -/
structure RawReg where
  map : List (String × Json)
  next : Int
  deriving Repr

/-- The raw registry the Vue component starts with: `orderMap` empty,
`nextOrder = 0`. -/
def RawReg.initial : RawReg := ⟨[], 0⟩

/-- Is the parsed value truthy and of `typeof === "object"`?
(`null` is falsy; booleans, numbers and strings are not objects;
arrays ARE objects to `typeof`.) -/
def isTruthyObject : Json → Bool
  | Json.jobj _ => true
  | Json.jarr _ => true
  | _ => false

/-- The method `loadSavedOrder()`: parses the persisted string (absent
data is replaced by `"{}"`), and if the result is truthy and
`typeof === "object"` installs it as `orderMap` — verbatim, whatever
its values — and sets `nextOrder` to
`isFinite(max) ? max + 1 : 0` for `max = Math.max(-1, ...values)`
(the match below is exactly that ternary).  A top-level array passes
the `typeof` check; its index keys and elements form the installed
map.  On a parse exception or a non-object value the registry is left
unchanged. -/
def loadSavedOrder (r : RawReg) (stored : Stored) : RawReg :=
  let nextOf : List (String × Json) → Int := fun fields =>
    match maxValues fields with
    | JNum.fin v => v + 1
    | _ => 0
  let applyVal : Json → RawReg := fun j =>
    match j with
    | Json.jobj fields => ⟨fields, nextOf fields⟩
    | Json.jarr elems =>
      let fields := elems.enum.map (fun p => (toString p.1, p.2))
      ⟨fields, nextOf fields⟩
    | _ => r
  match stored with
  | Stored.absent => applyVal (Json.jobj [])
  | Stored.badJson => r
  | Stored.val j => applyVal j

/-- The numeric reading of a map value, when it is a plain number. -/
def jnumValue : Json → Option Int
  | Json.jnum n => some n
  | _ => none

/-- The integer-level view of a raw registry: its numeric-valued
entries.  On a registry whose values are all plain numbers — every
well-formed persisted map — this is the whole map, and it is the `Reg`
the session machinery above operates on. -/
def RawReg.toReg (r : RawReg) : Reg :=
  ⟨r.map.filterMap (fun p => (jnumValue p.2).map (fun n => (p.1, n))),
    r.next⟩

/-- Is the value JSON null?  (`orderMap[name] == null` also holds for
an absent key, handled separately.) -/
def isNullJson : Json → Bool
  | Json.jnull => true
  | _ => false

/-- One iteration of the `list.forEach` body of `ensureStableOrder`
over the raw map: the `orderMap[api.name] == null` guard fires when
the key is absent or its value is JSON null, and only then assigns
`nextOrder++` (for a present null value the assignment overwrites in
place); the stamped `__order` is whatever the map then holds. -/
def rawEnsureStep (r : RawReg) (name : String) : RawReg × Json :=
  match r.map.lookup name with
  | none =>
    (⟨r.map ++ [(name, Json.jnum r.next)], r.next + 1⟩, Json.jnum r.next)
  | some v =>
    if isNullJson v then
      (⟨r.map.map (fun p => if p.1 = name then (p.1, Json.jnum r.next) else p),
          r.next + 1⟩, Json.jnum r.next)
    else (r, v)

/-- The `list.forEach` loop of `ensureStableOrder` over the raw map. -/
def rawStampAll (r : RawReg) : List String → RawReg × List (String × Json)
  | [] => (r, [])
  | n :: rest =>
    let (r', v) := rawEnsureStep r n
    let (r'', stamped) := rawStampAll r' rest
    (r'', (n, v) :: stamped)

/-- The sort comparator `(a, b) => a.__order - b.__order` as a `≤`
test: the subtraction is coerced through `ToNumber`; a NaN comparator
result is treated as 0 by the sort (elements compare equal), and
`∞ - ∞` is NaN too. -/
def jsSortLe (x y : JNum) : Bool :=
  match x, y with
  | JNum.nan, _ => true
  | _, JNum.nan => true
  | JNum.fin a, JNum.fin b => decide (a ≤ b)
  | JNum.posInf, JNum.posInf => true
  | JNum.negInf, _ => true
  | _, JNum.posInf => true
  | JNum.posInf, _ => false
  | _, JNum.negInf => false

/-- The method `ensureStableOrder(list)` over the raw registry: stamp
every entity through the forEach, then sort by the stamped `__order`
with the JS subtraction comparator. -/
def rawEnsureStableOrder (r : RawReg) (names : List String) :
    RawReg × List (String × Json) :=
  let (r', stamped) := rawStampAll r names
  (r', stamped.mergeSort (fun a b => jsSortLe (toNum a.2) (toNum b.2)))

/-- Registry invariant: every rank in the map is below the counter. -/
def RegInv (r : Reg) : Prop :=
  ∀ p ∈ r.map, p.2 < r.next

instance (r : Reg) : Decidable (RegInv r) := by
  unfold RegInv; infer_instance

/-! ## History window extractor (`historySlice`) -/

/-- An entity record as read by `historySlice`.  A field is `none` when
the JS property is absent or not an array (`Array.isArray` fails); the
element types are the concrete ones of the feed: numeric samples,
string timestamps, numeric ok-flags and numeric status codes. -/
structure Api where
  name : String
  history : Option (List Int)
  history_ts : Option (List String)
  history_ok : Option (List Int)
  history_status : Option (List Int)
  deriving Repr, DecidableEq

/-- Result record `{values, labels, ok, status}` of `historySlice`. -/
structure Slice where
  values : List Int
  labels : List String
  ok : List Int
  status : List Int
  deriving Repr, DecidableEq

/-- The window size `n` chosen by the `switch (this.timeRange)`:
`"24h" → 20`, `"7d" → 40`, `"30d"` and every other value → 60. -/
def windowSize (timeRange : String) : Nat :=
  if timeRange = "24h" then 20
  else if timeRange = "7d" then 40
  else 60

/-- The method `historySlice(api)` (reading `this.timeRange` as the second
argument): returns empty arrays for a null/undefined entity; otherwise
copies each history field (absent/non-array → `[]`), computes
`start = Math.max(0, values.length - n)` — which is exactly truncated
`Nat` subtraction — and takes `.slice(start)` of each copy. -/
def historySlice (api : Option Api) (timeRange : String) : Slice :=
  match api with
  | none => ⟨[], [], [], []⟩
  | some a =>
    let values := a.history.getD []
    let labels := a.history_ts.getD []
    let okFlags := a.history_ok.getD []
    let statusCodes := a.history_status.getD []
    let len := values.length
    let n := windowSize timeRange
    let start := len - n
    ⟨values.drop start, labels.drop start, okFlags.drop start,
      statusCodes.drop start⟩

/-! ## Tooltip geometry (`updateTooltipPos`) -/

/-- The method `updateTooltipPos(evt)`: default position is the pointer offset by
16 right and down; when the tooltip element is mounted
(`tooltipEl = some (width, height)`), flip left if the default right
edge would pass `windowWidth`, and flip up if the default bottom edge
would pass `windowHeight`; the two axes are checked independently.
Returns the `(tooltip.x, tooltip.y)` that the method stores. -/
def updateTooltipPos (clientX clientY : Int) (tooltipEl : Option (Int × Int))
    (windowWidth windowHeight : Int) : Int × Int :=
  let offset : Int := 16
  let newX := clientX + offset
  let newY := clientY + offset
  match tooltipEl with
  | none => (newX, newY)
  | some (tooltipWidth, tooltipHeight) =>
    let newX :=
      if clientX + offset + tooltipWidth > windowWidth then
        clientX - tooltipWidth - offset
      else newX
    let newY :=
      if clientY + offset + tooltipHeight > windowHeight then
        clientY - tooltipHeight - offset
      else newY
    (newX, newY)

/-! ## Chart lifecycle (`updateSparklines`, from the earlier revision
`src/unnamed/part_000`) -/

/-- Is the character kept verbatim by the slug regex, i.e. in
`[a-z0-9_-]` after lowercasing? -/
def isSlugChar (c : Char) : Bool :=
  (('a' ≤ c && c ≤ 'z') || ('0' ≤ c && c ≤ '9') || c = '_' || c = '-')

/-- Collapse every maximal run of non-slug characters into a single
`'-'` (the `.replace(/[^a-z0-9_-]+/gi, "-")`).  The flag records
whether the previous character was part of such a run. -/
def collapseRuns : Bool → List Char → List Char
  | _, [] => []
  | prevBad, c :: rest =>
    if isSlugChar c then c :: collapseRuns false rest
    else if prevBad then collapseRuns true rest
    else '-' :: collapseRuns true rest

/-- The method `slug(name)`: lowercase, then collapse runs of characters outside
`[a-z0-9_-]` to a single dash. -/
def slug (name : String) : String :=
  String.mk (collapseRuns false (name.data.map Char.toLower))

/-- The canvas element id a sparkline binds to: `'spark-' + slug(name)`. -/
def canvasId (name : String) : String := "spark-" ++ slug name

/-- The method `updateSparklines()`: the chart-handle map is modelled by its key
set (a list of entity names; handle payloads are opaque).  `visible` is
`filteredApis` (by name), `domHas` tells whether an element id is
attached to the document.  Step 1 destroys and drops every handle whose
name is not visible (destroy wrapped in try/catch, so it never fails);
step 2 walks the visible entities and, when the canvas is in the DOM,
creates a handle if none exists (an existing handle is updated in
place, leaving the key set unchanged).  A visible entity whose canvas
is missing is skipped for this pass. -/
def updateSparklines (charts : List String) (visible : List String)
    (domHas : String → Bool) : List String :=
  let kept := charts.filter (fun n => visible.contains n)
  visible.foldl
    (fun acc n =>
      if domHas (canvasId n) then
        if acc.contains n then acc else acc ++ [n]
      else acc)
    kept

/-! ## Polling and fetch (`startPolling`, `fetchStatus`) -/

/-- A timer armed through the host's timer API.  `repeating` is `true`
for `setInterval` timers and would be `false` for a `setTimeout`
one-shot. -/
structure TimerHandle where
  interval : Int
  repeating : Bool
  deriving Repr, DecidableEq

/-- The component state touched by the polling/fetch machinery.
`armedTimer` models whether a timer is currently armed
(`clearInterval` disarms it; the stale numeric id kept in
`fetchIntervalId` after a clear is not observable and is not
modelled).  `selectedApi` is the name of the record bound to the
detail modal. -/
structure AppState where
  apis : List (String × Int)
  reg : Reg
  showModal : Bool
  selectedApi : Option String
  fetchError : Option String
  isLoading : Bool
  refreshInterval : Int
  armedTimer : Option TimerHandle
  deriving Repr, DecidableEq

/-- The method `startPolling()`: clears any pending timer, then — with
`interval = parseInt(this.refreshInterval, 10)` — arms a `setInterval`
timer on `fetchStatus` when `interval > 0`, and otherwise leaves
polling paused (no timer armed). -/
def startPolling (s : AppState) : AppState :=
  let s := { s with armedTimer := none }
  if s.refreshInterval > 0 then
    { s with armedTimer := some ⟨s.refreshInterval, true⟩ }
  else s

/-- One complete run of `async fetchStatus()`, with the network outcome
passed in as `result` (`.ok data` for a parsed response of entity
names, `.error` for a network/parse rejection).  Entry: clear the
pending timer, bail out if a fetch is already in flight, else set
`isLoading` and clear the previous error.  Success: run the data
through `ensureStableOrder`, install it as `apis`, persist the order
map (`saveOrder` writes storage only — no component-state change), and
re-bind `selectedApi` to the freshly fetched record of the same name
when the modal is open (identity at this name-level of modelling; the
deferred `renderDetailChart` touches only the chart).  Failure: set the
user-visible `fetchError`, leaving `apis` alone.  Finally,
unconditionally: clear `isLoading` and call `startPolling` again. -/
def fetchStatusRun (s : AppState) (result : Except Unit (List String)) :
    AppState :=
  let s := { s with armedTimer := none }
  if s.isLoading then s
  else
    let s := { s with isLoading := true, fetchError := none }
    let s :=
      match result with
      | Except.ok data =>
        let (r', stamped) := ensureStableOrder s.reg data
        let s := { s with reg := r', apis := stamped }
        if s.showModal then
          match s.selectedApi with
          | some selName =>
            if stamped.any (fun p => p.1 = selName) then
              { s with selectedApi := some selName }
            else s
          | none => s
        else s
      | Except.error _ => { s with fetchError := some "Failed to fetch status." }
    startPolling { s with isLoading := false }

/-! ## Heap-level model of `historySlice` (for the frame/aliasing
property).  Arrays live in a store addressed by `Ref`; array elements
are opaque and uniformly modelled as `Int`.  JS `slice` always
allocates, so every array the function returns is a fresh cell. -/

abbrev Ref := Nat

/-- The array store: cell `i` holds the `i`-th allocated array. -/
abbrev Store := List (List Int)

/-- Read an array cell. -/
def readArr (σ : Store) (r : Ref) : List Int := σ.getD r []

/-- Allocate a fresh array holding `l`; returns the extended store and
the fresh reference. -/
def alloc (σ : Store) (l : List Int) : Store × Ref := (σ ++ [l], σ.length)

/-- An entity record at heap level: each history field is a reference
to an array cell, or `none` when the property is absent / not an
array. -/
structure ApiRefs where
  history : Option Ref
  history_ts : Option Ref
  history_ok : Option Ref
  history_status : Option Ref
  deriving Repr, DecidableEq

/-- The contents produced by `Array.isArray(x) ? x.slice() : []`: the
copied elements of the source array, or an empty array. -/
def copySrc (σ : Store) (r : Option Ref) : List Int :=
  match r with
  | some r0 => readArr σ r0
  | none => []

/-- The expression `Array.isArray(x) ? x.slice() : []`: both branches allocate a fresh
array (a full copy, or a fresh empty literal). -/
def copyField (σ : Store) (r : Option Ref) : Store × Ref :=
  alloc σ (copySrc σ r)

/-- The method `historySlice` at heap level: the early `if (!api)` return builds a
record of four fresh empty arrays; otherwise each field is copied, the
window start is computed from the copied `values`, and `.slice(start)`
allocates the four returned arrays. -/
def historySliceH (σ : Store) (api : Option ApiRefs) (timeRange : String) :
    Store × (Ref × Ref × Ref × Ref) :=
  match api with
  | none =>
    let (σ, v) := alloc σ []
    let (σ, l) := alloc σ []
    let (σ, o) := alloc σ []
    let (σ, st) := alloc σ []
    (σ, (v, l, o, st))
  | some a =>
    let (σ, v1) := copyField σ a.history
    let (σ, l1) := copyField σ a.history_ts
    let (σ, o1) := copyField σ a.history_ok
    let (σ, s1) := copyField σ a.history_status
    let len := (readArr σ v1).length
    let n := windowSize timeRange
    let start := len - n
    let (σ, v2) := alloc σ ((readArr σ v1).drop start)
    let (σ, l2) := alloc σ ((readArr σ l1).drop start)
    let (σ, o2) := alloc σ ((readArr σ o1).drop start)
    let (σ, s2) := alloc σ ((readArr σ s1).drop start)
    (σ, (v2, l2, o2, s2))

/-! ## Helper lemmas -/

theorem lookup_append_left {l l' : List (String × Int)} {n : String} {v : Int}
    (h : l.lookup n = some v) : (l ++ l').lookup n = some v := by
  induction l with
  | nil => simp [List.lookup] at h
  | cons p t ih =>
    rw [List.cons_append]
    cases p with
    | mk k w =>
      by_cases hk : n = k
      · subst hk
        simp [List.lookup] at h ⊢
        exact h
      · simp [List.lookup, beq_false_of_ne hk] at h ⊢
        exact ih h

theorem lookup_append_none {l l' : List (String × Int)} {n : String}
    (h : l.lookup n = none) : (l ++ l').lookup n = l'.lookup n := by
  induction l with
  | nil => simp
  | cons p t ih =>
    rw [List.cons_append]
    cases p with
    | mk k w =>
      by_cases hk : n = k
      · subst hk; simp [List.lookup] at h
      · simp only [List.lookup, beq_false_of_ne hk] at h ⊢
        exact ih h

theorem stampAll_cons (r : Reg) (n : String) (rest : List String) :
    stampAll r (n :: rest) =
      ((stampAll (ensureStep r n).1 rest).1,
        (n, (ensureStep r n).2) :: (stampAll (ensureStep r n).1 rest).2) := by
  cases h : ensureStep r n with
  | mk r' v =>
    cases h' : stampAll r' rest with
    | mk r'' st => simp [stampAll, h, h']

theorem ensureStableOrder_eq (r : Reg) (names : List String) :
    ensureStableOrder r names =
      ((stampAll r names).1,
        (stampAll r names).2.mergeSort (fun a b => decide (a.2 ≤ b.2))) := by
  cases h : stampAll r names with
  | mk r' st => simp [ensureStableOrder, h]

theorem ensureStep_lookup_mono {r : Reg} {m : String} {v : Int} (n : String)
    (h : r.map.lookup m = some v) :
    ((ensureStep r n).1).map.lookup m = some v := by
  unfold ensureStep
  cases hl : r.map.lookup n with
  | some w => simp [hl, h]
  | none => simpa [hl] using lookup_append_left h

theorem ensureStep_lookup_self (r : Reg) (n : String) :
    ((ensureStep r n).1).map.lookup n = some (ensureStep r n).2 := by
  unfold ensureStep
  cases hl : r.map.lookup n with
  | some w => simp [hl]
  | none =>
    simp only [hl]
    rw [lookup_append_none hl]
    simp [List.lookup]

theorem stampAll_lookup_mono {r : Reg} {m : String} {v : Int} (names : List String)
    (h : r.map.lookup m = some v) :
    ((stampAll r names).1).map.lookup m = some v := by
  induction names generalizing r with
  | nil => simpa [stampAll]
  | cons n rest ih =>
    rw [stampAll_cons]
    exact ih (ensureStep_lookup_mono n h)

theorem stampAll_lookup_of_mem {r : Reg} {n : String} {names : List String}
    (h : n ∈ names) : ∃ v, ((stampAll r names).1).map.lookup n = some v := by
  induction names generalizing r with
  | nil => cases h
  | cons m rest ih =>
    rw [stampAll_cons]
    by_cases hn : n ∈ rest
    · exact ih hn
    · have hnm : n = m := by
        rcases List.mem_cons.mp h with h' | h'
        · exact h'
        · exact absurd h' hn
      subst hnm
      exact ⟨_, stampAll_lookup_mono rest (ensureStep_lookup_self r n)⟩

theorem stampAll_stamped_lookup {r : Reg} {names : List String} :
    ∀ p ∈ (stampAll r names).2,
      ((stampAll r names).1).map.lookup p.1 = some p.2 := by
  induction names generalizing r with
  | nil => simp [stampAll]
  | cons m rest ih =>
    rw [stampAll_cons]
    intro p hp
    rcases List.mem_cons.mp hp with rfl | hp'
    · exact stampAll_lookup_mono rest (ensureStep_lookup_self r m)
    · exact ih p hp'

theorem stampAll_keys (r : Reg) (names : List String) :
    (stampAll r names).2.map Prod.fst = names := by
  induction names generalizing r with
  | nil => simp [stampAll]
  | cons m rest ih =>
    rw [stampAll_cons]
    simp [ih]

theorem lookup_of_forall_mem {l : List (String × Int)} {n : String} {v : Int}
    (hmem : n ∈ l.map Prod.fst) (hall : ∀ p ∈ l, p.1 = n → p.2 = v) :
    l.lookup n = some v := by
  induction l with
  | nil => simp at hmem
  | cons p t ih =>
    cases p with
    | mk k w =>
      by_cases hk : n = k
      · subst hk
        simp only [List.lookup, beq_self_eq_true]
        exact congrArg some (hall (n, w) (List.mem_cons_self _ _) rfl)
      · simp only [List.lookup, beq_false_of_ne hk]
        apply ih
        · rcases List.mem_cons.mp hmem with h' | h'
          · exact absurd h' hk
          · exact h'
        · exact fun p hp => hall p (List.mem_cons_of_mem _ hp)

theorem ensureStableOrder_snd_lookup {r : Reg} {names : List String} {n : String}
    (h : n ∈ names) :
    (ensureStableOrder r names).2.lookup n =
      ((stampAll r names).1).map.lookup n := by
  obtain ⟨v, hv⟩ := stampAll_lookup_of_mem (r := r) h
  rw [hv, ensureStableOrder_eq]
  have hperm := List.mergeSort_perm (stampAll r names).2
    (fun a b : String × Int => decide (a.2 ≤ b.2))
  apply lookup_of_forall_mem
  · have : n ∈ (stampAll r names).2.map Prod.fst := by
      rw [stampAll_keys]; exact h
    exact (hperm.map Prod.fst).mem_iff.mpr this
  · intro p hp hp1
    have hps : p ∈ (stampAll r names).2 := hperm.mem_iff.mp hp
    have := stampAll_stamped_lookup p hps
    rw [hp1, hv] at this
    exact (Option.some.injEq _ _).mp this.symm

theorem processSnapshot_eq (r : Reg) (names : List String) :
    processSnapshot r names = (stampAll r names).1 := by
  rw [processSnapshot, ensureStableOrder_eq]

theorem runSnapshots_cons (r : Reg) (s : List String)
    (rest : List (List String)) :
    runSnapshots r (s :: rest) = runSnapshots (processSnapshot r s) rest := rfl

theorem runSnapshots_append (r : Reg) (l1 l2 : List (List String)) :
    runSnapshots r (l1 ++ l2) = runSnapshots (runSnapshots r l1) l2 := by
  simp [runSnapshots, List.foldl_append]

theorem runSnapshots_lookup_mono {r : Reg} {n : String} {v : Int}
    (snaps : List (List String)) (h : r.map.lookup n = some v) :
    (runSnapshots r snaps).map.lookup n = some v := by
  induction snaps generalizing r with
  | nil => simpa [runSnapshots]
  | cons s rest ih =>
    rw [runSnapshots_cons]
    exact ih (by rw [processSnapshot_eq]; exact stampAll_lookup_mono s h)

theorem runSnapshots_take_succ {r : Reg} {snaps : List (List String)} {i : Nat}
    (hi : i < snaps.length) :
    runSnapshots r (snaps.take (i + 1)) =
      (stampAll (runSnapshots r (snaps.take i)) (snaps.getD i [])).1 := by
  rw [List.take_succ, List.getElem?_eq_getElem hi]
  simp only [Option.toList_some]
  rw [runSnapshots_append]
  have : runSnapshots (runSnapshots r (snaps.take i)) [snaps[i]] =
      processSnapshot (runSnapshots r (snaps.take i)) snaps[i] := rfl
  rw [this, processSnapshot_eq, List.getD_eq_getElem _ _ hi]

theorem snapshotRanks_lookup {r : Reg} {snaps : List (List String)} {i : Nat}
    {n : String} (hi : i < snaps.length) (hmem : n ∈ snaps.getD i []) :
    (snapshotRanks r snaps i).lookup n =
      (runSnapshots r (snaps.take (i + 1))).map.lookup n := by
  unfold snapshotRanks
  rw [ensureStableOrder_snd_lookup hmem, runSnapshots_take_succ hi]

theorem stampAll_of_present {r : Reg} {names : List String}
    (h : ∀ n ∈ names, ∃ v, r.map.lookup n = some v) :
    stampAll r names =
      (r, names.map (fun n => (n, (r.map.lookup n).getD 0))) := by
  induction names with
  | nil => simp [stampAll]
  | cons m rest ih =>
    obtain ⟨v, hv⟩ := h m (List.mem_cons_self _ _)
    have hstep : ensureStep r m = (r, v) := by simp [ensureStep, hv]
    rw [stampAll_cons, hstep]
    rw [ih (fun n hn => h n (List.mem_cons_of_mem _ hn))]
    simp [hv]

theorem stampAll_snd_eq (r : Reg) (names : List String) :
    (stampAll r names).2 =
      names.map (fun n => (n, (((stampAll r names).1).map.lookup n).getD 0)) := by
  induction names generalizing r with
  | nil => simp [stampAll]
  | cons m rest ih =>
    rw [stampAll_cons]
    simp only [List.map_cons]
    congr 1
    · have hm : ((stampAll (ensureStep r m).1 rest).1).map.lookup m =
          some (ensureStep r m).2 :=
        stampAll_lookup_mono rest (ensureStep_lookup_self r m)
      rw [hm]
      simp
    · exact ih (ensureStep r m).1

theorem ensureStableOrder_idem (r : Reg) (names : List String) :
    ensureStableOrder (ensureStableOrder r names).1 names
      = ensureStableOrder r names := by
  rw [ensureStableOrder_eq r names, ensureStableOrder_eq]
  have hpres : ∀ n ∈ names, ∃ v,
      ((stampAll r names).1).map.lookup n = some v :=
    fun n hn => stampAll_lookup_of_mem hn
  rw [stampAll_of_present hpres]
  rw [stampAll_snd_eq r names]

/-- C1.  Order stability: across any session of snapshots processed by
`ensureStableOrder` (starting from any registry), an entity name
present in snapshot `i` and in a later snapshot `k` is stamped the same
rank in the sorted output of both calls — membership alone matters, not
the name's position in either raw snapshot array — and repeated calls
on the same name list leave both the registry and the stamped, sorted
output unchanged. -/
theorem ensureStableOrder_rank_stability
    (r0 : Reg) (snaps : List (List String)) (i k : Nat) (name : String)
    (hik : i < k) (hk : k < snaps.length)
    (hi : name ∈ snaps.getD i []) (hkm : name ∈ snaps.getD k []) :
    ((snapshotRanks r0 snaps i).lookup name
        = (snapshotRanks r0 snaps k).lookup name
      ∧ (snapshotRanks r0 snaps i).lookup name ≠ none)
    ∧ ∀ (r : Reg) (names : List String),
        ensureStableOrder (ensureStableOrder r names).1 names
          = ensureStableOrder r names := by
  constructor
  · have hilen : i < snaps.length := lt_trans hik hk
    have h1 := snapshotRanks_lookup (r := r0) hilen hi
    have h2 := snapshotRanks_lookup (r := r0) hk hkm
    obtain ⟨v, hv⟩ : ∃ v,
        (runSnapshots r0 (snaps.take (i + 1))).map.lookup name = some v := by
      rw [runSnapshots_take_succ hilen]
      exact stampAll_lookup_of_mem hi
    have hsplit : snaps.take (i + 1) ++ ((snaps.drop (i + 1)).take (k - (i + 1)))
        = snaps.take k := by
      rw [← List.take_add]
      congr 1
      omega
    have hk1 : (runSnapshots r0 (snaps.take k)).map.lookup name = some v := by
      rw [← hsplit, runSnapshots_append]
      exact runSnapshots_lookup_mono _ hv
    have hk2 : (runSnapshots r0 (snaps.take (k + 1))).map.lookup name
        = some v := by
      rw [runSnapshots_take_succ hk]
      exact stampAll_lookup_mono _ hk1
    refine ⟨?_, ?_⟩
    · rw [h1, h2, hv, hk2]
    · rw [h1, hv]; simp
  · exact ensureStableOrder_idem

/-- Witness for C1 at the spec's own example: `A` and `B` first seen in
snapshot 1, snapshot 2 arrives re-ordered as `[B, A]`; `A` keeps its
rank. -/
theorem ensureStableOrder_rank_stability_witness :
    (snapshotRanks Reg.initial [["A", "B"], ["B", "A"]] 0).lookup "A"
      = (snapshotRanks Reg.initial [["A", "B"], ["B", "A"]] 1).lookup "A"
    ∧ (snapshotRanks Reg.initial [["A", "B"], ["B", "A"]] 0).lookup "A"
      ≠ none :=
  (ensureStableOrder_rank_stability Reg.initial [["A", "B"], ["B", "A"]]
    0 1 "A" (by decide) (by decide) (by decide) (by decide)).1

theorem ensureStep_inv {r : Reg} (n : String) (h : RegInv r) :
    RegInv (ensureStep r n).1 := by
  unfold ensureStep
  cases hl : r.map.lookup n with
  | some w => simpa [hl] using h
  | none =>
    simp only [hl]
    intro p hp
    rcases List.mem_append.mp hp with h1 | h2
    · exact lt_trans (h p h1) (lt_add_one _)
    · simp at h2
      subst h2
      exact lt_add_one _

theorem stampAll_inv {r : Reg} (names : List String) (h : RegInv r) :
    RegInv (stampAll r names).1 := by
  induction names generalizing r with
  | nil => simpa [stampAll] using h
  | cons m rest ih =>
    rw [stampAll_cons]
    exact ih (ensureStep_inv m h)

theorem ensureStep_lookup_other {r : Reg} {n m : String} (hnm : n ≠ m) :
    ((ensureStep r m).1).map.lookup n = r.map.lookup n := by
  unfold ensureStep
  cases hl : r.map.lookup m with
  | some w => simp [hl]
  | none =>
    simp only [hl]
    cases hn : r.map.lookup n with
    | some v => exact lookup_append_left hn
    | none =>
      rw [lookup_append_none hn]
      simp [List.lookup, beq_false_of_ne hnm]

theorem ensureStep_map_mem {r : Reg} (m : String) {p : String × Int}
    (hp : p ∈ r.map) : p ∈ ((ensureStep r m).1).map := by
  unfold ensureStep
  cases hl : r.map.lookup m with
  | some w => simpa [hl] using hp
  | none =>
    simp only [hl]
    exact List.mem_append_left _ hp

theorem stampAll_new_rank {r : Reg} {names : List String} {n : String}
    (hmem : n ∈ names) (hnew : r.map.lookup n = none) (hinv : RegInv r) :
    ∃ v, ((stampAll r names).1).map.lookup n = some v
      ∧ ∀ p ∈ r.map, p.2 < v := by
  induction names generalizing r with
  | nil => cases hmem
  | cons m rest ih =>
    rw [stampAll_cons]
    by_cases hm : n = m
    · subst hm
      have hstep : ensureStep r n =
          (⟨r.map ++ [(n, r.next)], r.next + 1⟩, r.next) := by
        simp [ensureStep, hnew]
      rw [hstep]
      refine ⟨r.next, ?_, fun p hp => hinv p hp⟩
      apply stampAll_lookup_mono
      show ((⟨r.map ++ [(n, r.next)], r.next + 1⟩ : Reg)).map.lookup n
          = some r.next
      rw [lookup_append_none hnew]
      simp [List.lookup]
    · have hmem' : n ∈ rest := by
        rcases List.mem_cons.mp hmem with h' | h'
        · exact absurd h' hm
        · exact h'
      have hnew' : ((ensureStep r m).1).map.lookup n = none := by
        rw [ensureStep_lookup_other hm]; exact hnew
      obtain ⟨v, hv, hlt⟩ := ih hmem' hnew' (ensureStep_inv m hinv)
      exact ⟨v, hv, fun p hp => hlt p (ensureStep_map_mem m hp)⟩

theorem loadSavedOrder_jobj (r : RawReg) (fields : List (String × Json)) :
    loadSavedOrder r (Stored.val (Json.jobj fields)) =
      ⟨fields,
        match maxValues fields with
        | JNum.fin v => v + 1
        | _ => 0⟩ := rfl

theorem jsMax_fold_fin {fields : List (String × Json)}
    (h : ∀ p ∈ fields, ∃ n : Int, p.2 = Json.jnum n) :
    ∀ init : Int, ∃ v : Int,
      fields.foldl (fun m p => jsMax m (toNum p.2)) (JNum.fin init)
          = JNum.fin v
        ∧ init ≤ v
        ∧ ∀ p ∈ fields, ∀ n : Int, p.2 = Json.jnum n → n ≤ v := by
  induction fields with
  | nil => exact fun init => ⟨init, rfl, le_refl _, by simp⟩
  | cons q t ih =>
    intro init
    obtain ⟨m, hm⟩ := h q (List.mem_cons_self _ _)
    have ht : ∀ p ∈ t, ∃ n : Int, p.2 = Json.jnum n :=
      fun p hp => h p (List.mem_cons_of_mem _ hp)
    obtain ⟨v, hfold, hle, hall⟩ := ih ht (max init m)
    refine ⟨v, ?_, le_trans (le_max_left _ _) hle, ?_⟩
    · rw [List.foldl_cons, hm]
      simpa [toNum, jsMax] using hfold
    · intro p hp n hn
      rcases List.mem_cons.mp hp with rfl | hp'
      · rw [hm] at hn
        cases hn
        exact le_trans (le_max_right _ _) hle
      · exact hall p hp' n hn

theorem loadSavedOrder_numeric_inv (fields : List (String × Json))
    (h : ∀ p ∈ fields, ∃ n : Int, p.2 = Json.jnum n) :
    RegInv ((loadSavedOrder RawReg.initial
      (Stored.val (Json.jobj fields))).toReg) := by
  obtain ⟨v, hv, _, hall⟩ := jsMax_fold_fin h (-1)
  have hmv : maxValues fields = JNum.fin v := hv
  rw [loadSavedOrder_jobj, hmv]
  intro p hp
  simp only [RawReg.toReg, List.mem_filterMap] at hp
  obtain ⟨q, hq, hqe⟩ := hp
  cases hjv : jnumValue q.2 with
  | none => rw [hjv] at hqe; simp at hqe
  | some n =>
    rw [hjv] at hqe
    simp at hqe
    have hq2 : q.2 = Json.jnum n := by
      cases hj : q.2 <;> simp [jnumValue, hj] at hjv
      rw [hjv]
    have hnv := hall q hq n hq2
    have hp2 : p.2 = n := by rw [← hqe]
    show p.2 < v + 1
    omega

/-- C5 counterexample: the persisted map `{"a": "x", "c": 7}` (installed
verbatim, as C8 establishes) makes `Math.max(-1, NaN, 7)` NaN, so the
`isFinite` guard resets `nextOrder` to 0 while rank 7 stays in the map;
the never-ranked entity `"b"` then receives rank 0 from
`ensureStableOrder`, not a rank strictly greater than the previously
assigned 7. -/
theorem ensureStableOrder_new_entity_rank_counterexample :
    (loadSavedOrder RawReg.initial (Stored.val (Json.jobj
        [("a", Json.jstr "x"), ("c", Json.jnum 7)]))).map
      = [("a", Json.jstr "x"), ("c", Json.jnum 7)]
    ∧ (loadSavedOrder RawReg.initial (Stored.val (Json.jobj
        [("a", Json.jstr "x"), ("c", Json.jnum 7)]))).next = 0
    ∧ (RawReg.mk [("a", Json.jstr "x"), ("c", Json.jnum 7)] 0).map.lookup
        "b" = none
    ∧ (rawEnsureStableOrder
        (RawReg.mk [("a", Json.jstr "x"), ("c", Json.jnum 7)] 0)
        ["b"]).2.lookup "b" = some (Json.jnum 0)
    ∧ ("c", Json.jnum 7)
        ∈ [("a", Json.jstr "x"), ("c", Json.jnum 7)]
    ∧ ¬((7 : Int) < 0) := by
  refine ⟨rfl, rfl, rfl, ?_, ?_, by decide⟩
  · simp [rawEnsureStableOrder, rawStampAll, rawEnsureStep, List.lookup]
  · exact List.mem_cons_of_mem _ (List.mem_cons_self _ _)

/-- C5 amended.  New-entity append under the registry invariant
(every mapped rank below the counter): a name not yet ranked — neither
earlier in the session nor in the restored map — is stamped a rank
strictly greater than every rank already in the map.  The invariant is
established by `loadSavedOrder` for a persisted map whose values are
all plain numbers (every well-formed persisted map; `RawReg.toReg` is
then the whole map) and is preserved by every snapshot; a persisted
map with a non-numeric or non-finite value instead resets the counter
to 0 with larger ranks still present, as the counterexample shows. -/
theorem ensureStableOrder_new_entity_rank
    (r : Reg) (names : List String) (name : String)
    (hinv : RegInv r) (hmem : name ∈ names)
    (hnew : r.map.lookup name = none) :
    (∃ v, (ensureStableOrder r names).2.lookup name = some v
        ∧ ∀ p ∈ r.map, p.2 < v)
    ∧ (∀ fields : List (String × Json),
        (∀ p ∈ fields, ∃ n : Int, p.2 = Json.jnum n) →
        RegInv ((loadSavedOrder RawReg.initial
          (Stored.val (Json.jobj fields))).toReg))
    ∧ (∀ (r' : Reg) (names' : List String), RegInv r' →
        RegInv (ensureStableOrder r' names').1) := by
  refine ⟨?_, loadSavedOrder_numeric_inv, ?_⟩
  · obtain ⟨v, hv, hlt⟩ := stampAll_new_rank hmem hnew hinv
    refine ⟨v, ?_, hlt⟩
    rw [ensureStableOrder_snd_lookup hmem, hv]
  · intro r' names' h'
    rw [ensureStableOrder_eq]
    exact stampAll_inv names' h'

/-- Witness for C5: starting from a restored map `{"A": 5}`, the unseen
name `"B"` is stamped a rank above 5. -/
theorem ensureStableOrder_new_entity_rank_witness :
    ∃ v, (ensureStableOrder ⟨[("A", 5)], 6⟩ ["A", "B"]).2.lookup "B" = some v
      ∧ ∀ p ∈ ([("A", 5)] : List (String × Int)), p.2 < v :=
  (ensureStableOrder_new_entity_rank ⟨[("A", 5)], 6⟩ ["A", "B"] "B"
    (by decide) (by decide) (by decide)).1

/-- C3.  Window bound of `historySlice`: the `values` array carries at
most 20 samples under `"24h"`, 40 under `"7d"`, and 60 under `"30d"`
or any unrecognized range; a history shorter than the window is
returned whole and unpadded; absent or null input yields `[]` instead
of an error (the function is total). -/
theorem historySlice_window_bound (a : Option Api) :
    (historySlice a "24h").values.length ≤ 20
    ∧ (historySlice a "7d").values.length ≤ 40
    ∧ (∀ tr : String, tr ≠ "24h" → tr ≠ "7d" →
        (historySlice a tr).values.length ≤ 60)
    ∧ (∀ (tr : String) (e : Api) (l : List Int), a = some e →
        e.history = some l → l.length ≤ windowSize tr →
        (historySlice a tr).values = l)
    ∧ (∀ (tr : String) (e : Api), a = some e → e.history = none →
        (historySlice a tr).values = [])
    ∧ (historySlice none "24h" = ⟨[], [], [], []⟩) := by
  refine ⟨?_, ?_, ?_, ?_, ?_, rfl⟩
  · cases a with
    | none => simp [historySlice]
    | some e => simp [historySlice, windowSize]; omega
  · cases a with
    | none => simp [historySlice]
    | some e => simp [historySlice, windowSize]; omega
  · intro tr h1 h2
    cases a with
    | none => simp [historySlice]
    | some e =>
      simp [historySlice, windowSize, h1, h2]; omega
  · intro tr e l ha hl hlen
    subst ha
    simp [historySlice, hl, Nat.sub_eq_zero_of_le hlen]
  · intro tr e ha hl
    subst ha
    simp [historySlice, hl]

/-- Witness for C3 on a three-sample history: `"24h"` returns it whole,
and an unrecognized range stays within 60. -/
theorem historySlice_window_bound_witness :
    (historySlice (some ⟨"svc", some [1, 2, 3], none, none, none⟩)
        "24h").values = [1, 2, 3]
    ∧ (historySlice (some ⟨"svc", some [1, 2, 3], none, none, none⟩)
        "99x").values.length ≤ 60 :=
  ⟨(historySlice_window_bound
      (some ⟨"svc", some [1, 2, 3], none, none, none⟩)).2.2.2.1 "24h"
      _ _ rfl rfl (by decide),
    (historySlice_window_bound
      (some ⟨"svc", some [1, 2, 3], none, none, none⟩)).2.2.1 "99x"
      (by decide) (by decide)⟩

/-- C4 counterexample: an entity whose `history` holds one sample but
whose `history_ts` is absent.  `historySlice` returns `values` of
length 1 and `labels` of length 0 — the four output arrays are not
equal in length, because the slice start is computed from `values`
alone and absent arrays become empty. -/
theorem historySlice_alignment_counterexample :
    (historySlice (some ⟨"a", some [1], none, none, none⟩)
        "24h").values.length
      ≠ (historySlice (some ⟨"a", some [1], none, none, none⟩)
        "24h").labels.length := by
  decide

/-- C4 amended: when the four source arrays (absent ones taken as
empty) have equal length — the documented input invariant — the four
arrays returned by `historySlice` are equal in length and
index-aligned: position `i` of each output is position `start + i` of
the corresponding source. -/
theorem historySlice_alignment (e : Api) (tr : String)
    (hts : (e.history_ts.getD []).length = (e.history.getD []).length)
    (hok : (e.history_ok.getD []).length = (e.history.getD []).length)
    (hst : (e.history_status.getD []).length = (e.history.getD []).length) :
    ((historySlice (some e) tr).labels.length
        = (historySlice (some e) tr).values.length
      ∧ (historySlice (some e) tr).ok.length
        = (historySlice (some e) tr).values.length
      ∧ (historySlice (some e) tr).status.length
        = (historySlice (some e) tr).values.length)
    ∧ ∀ i : Nat,
        (historySlice (some e) tr).values[i]?
            = (e.history.getD [])[
                (e.history.getD []).length - windowSize tr + i]?
        ∧ (historySlice (some e) tr).labels[i]?
            = (e.history_ts.getD [])[
                (e.history.getD []).length - windowSize tr + i]?
        ∧ (historySlice (some e) tr).ok[i]?
            = (e.history_ok.getD [])[
                (e.history.getD []).length - windowSize tr + i]?
        ∧ (historySlice (some e) tr).status[i]?
            = (e.history_status.getD [])[
                (e.history.getD []).length - windowSize tr + i]? := by
  constructor
  · simp [historySlice, List.length_drop, hts, hok, hst]
  · intro i
    simp [historySlice, List.getElem?_drop]

/-- Witness for C4 on a fully aligned two-sample entity. -/
theorem historySlice_alignment_witness :
    ((historySlice (some ⟨"a", some [7, 9], some ["t1", "t2"],
          some [1, 1], some [200, 200]⟩) "24h").labels.length
        = (historySlice (some ⟨"a", some [7, 9], some ["t1", "t2"],
          some [1, 1], some [200, 200]⟩) "24h").values.length)
    ∧ (historySlice (some ⟨"a", some [7, 9], some ["t1", "t2"],
          some [1, 1], some [200, 200]⟩) "24h").values[0]?
        = (([7, 9] : List Int))[2 - windowSize "24h" + 0]? :=
  ⟨(historySlice_alignment ⟨"a", some [7, 9], some ["t1", "t2"],
      some [1, 1], some [200, 200]⟩ "24h" (by decide) (by decide)
      (by decide)).1.1,
    ((historySlice_alignment ⟨"a", some [7, 9], some ["t1", "t2"],
      some [1, 1], some [200, 200]⟩ "24h" (by decide) (by decide)
      (by decide)).2 0).1⟩

/-- C2 counterexample: pointer at `(5, 5)` inside a `210 × 300`
viewport, tooltip `200 × 20` (both dimensions fit the viewport).  The
default right edge `5 + 16 + 200 = 221` exceeds 210, so the horizontal
flip places the tooltip at `x = 5 - 200 - 16 = -211`, outside
`[0, viewportWidth]`. -/
theorem updateTooltipPos_containment_counterexample :
    (200 : Int) ≤ 210 ∧ (20 : Int) ≤ 300
    ∧ (0 : Int) ≤ 5 ∧ (5 : Int) ≤ 210 ∧ (5 : Int) ≤ 300
    ∧ (updateTooltipPos 5 5 (some (200, 20)) 210 300).1 = -211
    ∧ ¬(0 ≤ (updateTooltipPos 5 5 (some (200, 20)) 210 300).1) := by
  decide

/-- C2 amended: containment holds for a pointer inside the viewport
and a tooltip fitting it, provided additionally that whenever the
horizontal flip triggers the pointer is at least `tooltipWidth + 16`
from the left edge, and whenever the vertical flip triggers it is at
least `tooltipHeight + 16` from the top (in particular whenever the
viewport is at least twice the tooltip size plus 32 in each
dimension). -/
theorem updateTooltipPos_containment (px py tw th vw vh : Int)
    (hpx0 : 0 ≤ px) (hpxw : px ≤ vw) (hpy0 : 0 ≤ py) (hpyh : py ≤ vh)
    (_htww : tw ≤ vw) (_hthh : th ≤ vh)
    (hflipx : px + 16 + tw > vw → tw + 16 ≤ px)
    (hflipy : py + 16 + th > vh → th + 16 ≤ py) :
    0 ≤ (updateTooltipPos px py (some (tw, th)) vw vh).1
    ∧ (updateTooltipPos px py (some (tw, th)) vw vh).1 + tw ≤ vw
    ∧ 0 ≤ (updateTooltipPos px py (some (tw, th)) vw vh).2
    ∧ (updateTooltipPos px py (some (tw, th)) vw vh).2 + th ≤ vh := by
  have hx : tw + 16 ≤ px ∨ px + 16 + tw ≤ vw := by
    by_cases h : px + 16 + tw > vw
    · exact Or.inl (hflipx h)
    · exact Or.inr (by omega)
  have hy : th + 16 ≤ py ∨ py + 16 + th ≤ vh := by
    by_cases h : py + 16 + th > vh
    · exact Or.inl (hflipy h)
    · exact Or.inr (by omega)
  simp only [updateTooltipPos]
  split_ifs <;> refine ⟨?_, ?_, ?_, ?_⟩ <;> omega

/-- Witness for C2: pointer `(100, 100)` in a `120 × 130` viewport,
tooltip `50 × 40`; both flips trigger and the result stays inside. -/
theorem updateTooltipPos_containment_witness :
    0 ≤ (updateTooltipPos 100 100 (some (50, 40)) 120 130).1
    ∧ (updateTooltipPos 100 100 (some (50, 40)) 120 130).1 + 50 ≤ 120
    ∧ 0 ≤ (updateTooltipPos 100 100 (some (50, 40)) 120 130).2
    ∧ (updateTooltipPos 100 100 (some (50, 40)) 120 130).2 + 40 ≤ 130 :=
  updateTooltipPos_containment 100 100 50 40 120 130 (by decide) (by decide)
    (by decide) (by decide) (by decide) (by decide) (by decide) (by decide)

theorem sparkFold_mem (domHas : String → Bool) (l : List String)
    (hdom : ∀ n ∈ l, domHas (canvasId n) = true) (acc : List String)
    (x : String) :
    x ∈ l.foldl
        (fun acc n =>
          if domHas (canvasId n) then
            if acc.contains n then acc else acc ++ [n]
          else acc)
        acc
      ↔ x ∈ acc ∨ x ∈ l := by
  induction l generalizing acc with
  | nil => simp
  | cons m rest ih =>
    rw [List.foldl_cons]
    have hm := hdom m (List.mem_cons_self _ _)
    have hrest : ∀ n ∈ rest, domHas (canvasId n) = true :=
      fun n hn => hdom n (List.mem_cons_of_mem _ hn)
    by_cases hc : acc.contains m = true
    · have hcm : m ∈ acc := by simpa using hc
      have hstep : (if domHas (canvasId m) then
          (if acc.contains m then acc else acc ++ [m]) else acc) = acc := by
        simp [hm, hc]
        exact hcm
      rw [hstep, ih hrest acc]
      constructor
      · rintro (h | h)
        · exact Or.inl h
        · exact Or.inr (List.mem_cons_of_mem _ h)
      · rintro (h | h)
        · exact Or.inl h
        · rcases List.mem_cons.mp h with rfl | h'
          · exact Or.inl hcm
          · exact Or.inr h'
    · have hstep : (if domHas (canvasId m) then
          (if acc.contains m then acc else acc ++ [m]) else acc)
            = acc ++ [m] := by
        simp [hm, hc]
        simpa using hc
      rw [hstep, ih hrest (acc ++ [m])]
      simp only [List.mem_append, List.mem_cons, List.mem_singleton]
      tauto

/-- C6 counterexample: visible set `{"a"}`, no chart handles, but the
canvas `spark-a` is not yet in the DOM.  `updateSparklines` skips the
entity, so afterwards the handle key set is empty, not `{"a"}`. -/
theorem updateSparklines_keys_counterexample :
    updateSparklines [] ["a"] (fun _ => false) = []
    ∧ ¬("a" ∈ updateSparklines [] ["a"] (fun _ => false)) := by
  constructor
  · rfl
  · intro h
    simp [updateSparklines] at h

/-- C6 amended: provided every visible entity's render target is
attached to the DOM, the handle key set after `updateSparklines` equals
exactly the visible name set — stale handles are destroyed and
dropped, every visible entity gains a handle.  (Without that proviso
an entity whose canvas is missing is skipped for the pass, so its key
can be absent.) -/
theorem updateSparklines_keys (charts visible : List String)
    (domHas : String → Bool)
    (hdom : ∀ n ∈ visible, domHas (canvasId n) = true) :
    ∀ n, n ∈ updateSparklines charts visible domHas ↔ n ∈ visible := by
  intro n
  unfold updateSparklines
  rw [sparkFold_mem domHas visible hdom]
  constructor
  · rintro (hk | hv)
    · have := (List.mem_filter.mp hk).2
      simpa using this
    · exact hv
  · exact Or.inr

/-- Witness for C6: one stale handle `"b"`, visible set `{"a"}`, all
canvases attached — afterwards exactly `{"a"}` has a handle. -/
theorem updateSparklines_keys_witness :
    ("a" ∈ updateSparklines ["b"] ["a"] (fun _ => true) ↔
      "a" ∈ (["a"] : List String))
    ∧ ("b" ∈ updateSparklines ["b"] ["a"] (fun _ => true) ↔
      "b" ∈ (["a"] : List String)) :=
  ⟨updateSparklines_keys ["b"] ["a"] (fun _ => true)
      (fun _ _ => rfl) "a",
    updateSparklines_keys ["b"] ["a"] (fun _ => true)
      (fun _ _ => rfl) "b"⟩

theorem startPolling_armedTimer (t : AppState) :
    (startPolling t).armedTimer =
      if t.refreshInterval > 0 then some ⟨t.refreshInterval, true⟩
      else none := by
  simp only [startPolling]
  split_ifs <;> rfl

theorem startPolling_apis (t : AppState) :
    (startPolling t).apis = t.apis := by
  simp only [startPolling]
  split_ifs <;> rfl

theorem startPolling_fetchError (t : AppState) :
    (startPolling t).fetchError = t.fetchError := by
  simp only [startPolling]
  split_ifs <;> rfl

theorem startPolling_isLoading (t : AppState) :
    (startPolling t).isLoading = t.isLoading := by
  simp only [startPolling]
  split_ifs <;> rfl

theorem fetchStatusRun_armedTimer (s : AppState)
    (result : Except Unit (List String)) (hload : s.isLoading = false)
    (hint : 0 < s.refreshInterval) :
    (fetchStatusRun s result).armedTimer
      = some ⟨s.refreshInterval, true⟩ := by
  have hri : ∀ m : AppState, m.refreshInterval = s.refreshInterval →
      (startPolling m).armedTimer = some ⟨s.refreshInterval, true⟩ := by
    intro m hm
    rw [startPolling_armedTimer, hm, if_pos hint]
  cases result with
  | error e =>
    simp only [fetchStatusRun, hload]
    exact hri _ rfl
  | ok data =>
    simp only [fetchStatusRun, hload]
    cases hE : ensureStableOrder s.reg data with
    | mk r' stamped =>
      apply hri
      split <;> (try split) <;> (try split) <;> rfl

/-- C7.  Transport/parse failure: with no fetch in flight and polling
configured (`0 < refreshInterval`), a failing `fetchStatus` leaves the
entity collection `apis` untouched, records the user-visible error
string, ends with `isLoading` cleared, and — regardless of success or
failure — re-arms the poll timer in its `finally` block. -/
theorem fetchStatus_failure_recovery (s : AppState) (e : Unit)
    (hload : s.isLoading = false) (hint : 0 < s.refreshInterval) :
    (fetchStatusRun s (Except.error e)).apis = s.apis
    ∧ (fetchStatusRun s (Except.error e)).fetchError
        = some "Failed to fetch status."
    ∧ (fetchStatusRun s (Except.error e)).isLoading = false
    ∧ ∀ result, (fetchStatusRun s result).armedTimer
        = some ⟨s.refreshInterval, true⟩ := by
  have herr : fetchStatusRun s (Except.error e) =
      startPolling { s with
        armedTimer := none
        fetchError := some "Failed to fetch status."
        isLoading := false } := by
    simp only [fetchStatusRun, hload]
    rfl
  refine ⟨?_, ?_, ?_,
    fun result => fetchStatusRun_armedTimer s result hload hint⟩
  · rw [herr, startPolling_apis]
  · rw [herr, startPolling_fetchError]
  · rw [herr, startPolling_isLoading]

/-- Witness for C7 at a concrete idle state with a 30000 ms interval. -/
theorem fetchStatus_failure_recovery_witness :
    (fetchStatusRun ⟨[("A", 0)], ⟨[("A", 0)], 1⟩, false, none, none,
        false, 30000, none⟩ (Except.error ())).apis = [("A", 0)]
    ∧ (fetchStatusRun ⟨[("A", 0)], ⟨[("A", 0)], 1⟩, false, none, none,
        false, 30000, none⟩ (Except.error ())).fetchError
        = some "Failed to fetch status."
    ∧ (fetchStatusRun ⟨[("A", 0)], ⟨[("A", 0)], 1⟩, false, none, none,
        false, 30000, none⟩ (Except.error ())).isLoading = false
    ∧ ∀ result, (fetchStatusRun ⟨[("A", 0)], ⟨[("A", 0)], 1⟩, false,
        none, none, false, 30000, none⟩ result).armedTimer
        = some ⟨30000, true⟩ :=
  fetchStatus_failure_recovery ⟨[("A", 0)], ⟨[("A", 0)], 1⟩, false, none,
    none, false, 30000, none⟩ () rfl (by decide)

/-- C8 counterexample: the persisted value `{"a": -3}` is malformed
(the documented format maps names to non-negative integer ranks), yet
`loadSavedOrder` installs it verbatim as the order map — the registry
is left with a non-empty map, not the empty map the claim requires
(`nextOrder` becomes `max(-1, -3) + 1 = 0`). -/
theorem loadSavedOrder_fallback_counterexample :
    (loadSavedOrder RawReg.initial
        (Stored.val (Json.jobj [("a", Json.jnum (-3))]))).map
      = [("a", Json.jnum (-3))]
    ∧ (loadSavedOrder RawReg.initial
        (Stored.val (Json.jobj [("a", Json.jnum (-3))]))).next = 0
    ∧ (loadSavedOrder RawReg.initial
        (Stored.val (Json.jobj [("a", Json.jnum (-3))]))).map ≠ [] := by
  refine ⟨rfl, rfl, ?_⟩
  intro h
  exact List.cons_ne_nil _ _ h

/-- C8 amended: when the persisted data is missing, fails to parse as
JSON, or parses to a non-object value (to `typeof`, which counts
arrays as objects), `loadSavedOrder` leaves the startup registry with
an empty map and counter 0, surfacing no error (the function is total;
the `try/catch` swallows the parse throw).  A value that parses to an
object is installed as the map even when its entries are not valid
non-negative ranks. -/
theorem loadSavedOrder_fallback (stored : Stored)
    (h : stored = Stored.absent ∨ stored = Stored.badJson
      ∨ ∃ j, stored = Stored.val j ∧ isTruthyObject j = false) :
    loadSavedOrder RawReg.initial stored = RawReg.initial := by
  rcases h with rfl | rfl | ⟨j, rfl, hj⟩
  · rfl
  · rfl
  · cases j with
    | jobj fields => simp [isTruthyObject] at hj
    | jarr elems => simp [isTruthyObject] at hj
    | jnull => rfl
    | jbool b => rfl
    | jnum n => rfl
    | jnumBig pos => rfl
    | jstr s => rfl

/-- Witness for C8: an unparseable stored string leaves the registry
at the initial empty map / counter 0. -/
theorem loadSavedOrder_fallback_witness :
    loadSavedOrder RawReg.initial Stored.badJson = RawReg.initial :=
  loadSavedOrder_fallback Stored.badJson (Or.inr (Or.inl rfl))

/-- C9 counterexample: `startPolling` with refresh interval 30000 arms
a repeating `setInterval` timer (`repeating = true`), not the one-shot
timer the claim describes. -/
theorem startPolling_counterexample :
    ((startPolling ⟨[], Reg.initial, false, none, none, false, 30000,
        none⟩).armedTimer.map TimerHandle.repeating) = some true
    ∧ ((startPolling ⟨[], Reg.initial, false, none, none, false, 30000,
        none⟩).armedTimer.map TimerHandle.repeating) ≠ some false := by
  constructor
  · decide
  · decide

/-- C9 amended: `startPolling` cancels any pending timer (the armed
timer after the call is independent of the timer before it); when the
parsed interval is not positive it leaves polling paused with no timer
armed; otherwise it arms a repeating `setInterval` timer on
`fetchStatus` with that interval — effectively one-shot only because
`fetchStatus` clears the pending timer on entry and re-arms on
completion. -/
theorem startPolling_spec (s : AppState) :
    ((startPolling s).armedTimer
      = if s.refreshInterval > 0 then some ⟨s.refreshInterval, true⟩
        else none)
    ∧ ∀ t : Option TimerHandle,
        (startPolling { s with armedTimer := t }).armedTimer
          = (startPolling s).armedTimer := by
  refine ⟨startPolling_armedTimer s, fun t => ?_⟩
  rw [startPolling_armedTimer, startPolling_armedTimer]

theorem readArr_append {σ ext : Store} {r : Ref} (h : r < σ.length) :
    readArr (σ ++ ext) r = readArr σ r := by
  simp only [readArr, List.getD_eq_getElem?_getD]
  rw [List.getElem?_append_left h]

/-- C10.  `historySlice` never mutates its input: every array cell that
existed before the call — in particular each of the entity's four
history arrays — holds the same contents afterwards (the store is only
extended), and the four returned arrays are freshly allocated
references, distinct from every pre-existing cell.  The method body
contains no assignment to `api` itself. -/
theorem historySlice_no_mutation (σ : Store) (api : Option ApiRefs)
    (tr : String) :
    (∀ r, r < σ.length →
        readArr (historySliceH σ api tr).1 r = readArr σ r)
    ∧ σ.length ≤ (historySliceH σ api tr).2.1
    ∧ σ.length ≤ (historySliceH σ api tr).2.2.1
    ∧ σ.length ≤ (historySliceH σ api tr).2.2.2.1
    ∧ σ.length ≤ (historySliceH σ api tr).2.2.2.2 := by
  cases api with
  | none =>
    refine ⟨?_, ?_, ?_, ?_, ?_⟩
    · intro r hr
      simp only [historySliceH, alloc, List.append_assoc]
      exact readArr_append hr
    all_goals simp [historySliceH, alloc, List.length_append]
  | some a =>
    refine ⟨?_, ?_, ?_, ?_, ?_⟩
    · intro r hr
      simp only [historySliceH, copyField, alloc, List.append_assoc]
      exact readArr_append hr
    all_goals simp [historySliceH, copyField, alloc, List.length_append]

/-- Witness for C10: a one-cell store holding `[5, 6]`, referenced by
the entity's `history`; the cell is unchanged and the returned `values`
reference is fresh. -/
theorem historySlice_no_mutation_witness :
    readArr (historySliceH [[5, 6]] (some ⟨some 0, none, none, none⟩)
        "24h").1 0 = readArr [[5, 6]] 0
    ∧ 1 ≤ (historySliceH [[5, 6]] (some ⟨some 0, none, none, none⟩)
        "24h").2.1 :=
  ⟨(historySlice_no_mutation [[5, 6]] (some ⟨some 0, none, none, none⟩)
      "24h").1 0 (by decide),
    (historySlice_no_mutation [[5, 6]] (some ⟨some 0, none, none, none⟩)
      "24h").2.1⟩

end StatusApp
